import Mathlib

/-!
Verification development for the blaze-lib linear-algebra evaluation engine.

The development shallowly embeds the parts of the repository that the
verified properties talk about:

* the aliasing-aware assignment engine for vector and matrix expressions
  (modelled from the specification, since only its aliasing tests are part
  of the source tree);
* the `VectorSerializer` deserialization pipeline
  (`blaze/math/serialization/VectorSerializer.h`);
* the `DVecTransExprTrait` result-type trait
  (`blaze/math/traits/DVecTransExprTrait.h`);
* the `UniqueArray` smart pointer (`blaze/util/UniqueArray.h`).

Machine values are modelled as unbounded integers (`Int`); vectors are
lists of integers and matrices are row-major lists of rows.
-/

namespace Blaze

/-- Model of a vector's contents: the dense sequence of its element values.
Sparse and dense vectors are observationally identified with the sequence
of values they hold. -/
abbrev Vecz := List Int

/-- Model of a matrix's contents, row-major: a list of rows. -/
abbrev Matz := List (List Int)

/-- Element read with default 0 (value of an unwritten position; for sparse
containers, positions without an explicit entry hold zero). -/
def elemAt (v : Vecz) (i : Nat) : Int :=
  v.getD i 0

/-- Dot product of two sequences, truncating at the shorter one. -/
def dotProd : List Int → List Int → Int
  | a :: as, b :: bs => a * b + dotProd as bs
  | _, _ => 0

/-- Matrix · vector product: one dot product per row. -/
def matVecMul (M : Matz) (v : Vecz) : Vecz :=
  M.map (fun row => dotProd row v)

/-- The store of named vector containers targeted by assignments.  Each
`Nat` names one container (a distinct storage identity). -/
abbrev Store := Nat → Vecz

namespace Store

/-- Overwrite the contents of container `d`. -/
def update (st : Store) (d : Nat) (v : Vecz) : Store :=
  fun i => if i = d then v else st i

theorem update_same (st : Store) (d : Nat) (v : Vecz) :
    st.update d v d = v := by
  simp [update]

theorem update_other (st : Store) (d : Nat) (v : Vecz) {i : Nat} (h : i ≠ d) :
    st.update d v i = st i := by
  simp [update, h]

theorem update_self (st : Store) (d : Nat) : st.update d (st d) = st := by
  funext i
  by_cases h : i = d <;> simp [update, h]

end Store

/-- Modelled from the spec: the expression node model (§4.2) for vector
expressions, as far as the aliasing claims need it — stored-container
leaves, literal (temporary) operands, element-wise addition and
matrix·vector multiplication with a literal matrix. -/
inductive VExpr where
  | var (i : Nat)
  | lit (v : Vecz)
  | add (e1 e2 : VExpr)
  | matvec (M : Matz) (e : VExpr)
  deriving DecidableEq

/-- Modelled from the spec: pure evaluation of a vector expression against a
store — the reference semantics that a fresh, unaliased destination
receives. -/
def veval (st : Store) : VExpr → Vecz
  | .var i => st i
  | .lit v => v
  | .add e1 e2 => List.zipWith (· + ·) (veval st e1) (veval st e2)
  | .matvec M e => matVecMul M (veval st e)

/-- Modelled from the spec: the aliasing oracle's identity check
`isAliased` (§4.4) — does container `d`'s storage identity appear anywhere
in the operand tree? -/
def usesVar : VExpr → Nat → Bool
  | .var i, d => i == d
  | .lit _, _ => false
  | .add e1 e2, d => usesVar e1 d || usesVar e2 d
  | .matvec _ e, d => usesVar e d

/-- Modelled from the spec: the declared result shape (§4.2 `shape()`), a
pure function of operand shapes, computable without evaluating elements. -/
def vshape (st : Store) : VExpr → Nat
  | .var i => (st i).length
  | .lit v => v.length
  | .add e1 _ => vshape st e1
  | .matvec M _ => M.length

/-- Shape compatibility of a vector expression (§4.2: operand shape
mismatches are a construction-time error; we carry the well-formedness as
a side condition of the embedding). -/
def wfB (st : Store) : VExpr → Bool
  | .var _ => true
  | .lit _ => true
  | .add e1 e2 => wfB st e1 && wfB st e2 && (vshape st e1 == vshape st e2)
  | .matvec _ e => wfB st e

/-- Modelled from the spec: the two assignment strategies of §4.4 —
direct evaluation into the destination versus evaluation through a
temporary that is transferred afterwards. -/
inductive Strategy where
  | direct
  | temporary
  deriving DecidableEq

/-- Modelled from the spec: the single-operand identity case of the
aliasing oracle (§4.4 step 3) — the destination is exactly one top-level
operand of an element-wise addition whose other operand does not read the
destination, so an in-place traversal in index order 0..n-1 is safe. -/
def safeInPlace (d : Nat) : VExpr → Bool
  | .add e1 e2 =>
      (decide (e1 = VExpr.var d) && !usesVar e2 d) ||
      (decide (e2 = VExpr.var d) && !usesVar e1 d)
  | _ => false

/-- Modelled from the spec: strategy selection for `dst = expr` (§4.4
steps 2–3): no aliasing → direct; single-operand identity aliasing →
direct (in place); any other aliasing → temporary. -/
def selectStrategy (d : Nat) (e : VExpr) : Strategy :=
  if usesVar e d = false then .direct
  else if safeInPlace d e then .direct
  else .temporary

/-- The strategies the engine may select for `dst = expr`: the temporary
path is always admissible; the direct path only when the expression does
not alias the destination or the aliasing is the single-operand identity
case. -/
def strategyOK (d : Nat) (e : VExpr) : Strategy → Bool
  | .temporary => true
  | .direct => !usesVar e d || safeInPlace d e

/-- Modelled from the spec: non-preserving resize of a container
(`resize(n, false)`): the resized container holds `n` default elements. -/
def resizeVec (n : Nat) : Vecz :=
  List.replicate n 0

/-- Modelled from the spec: the direct-evaluation write loop — for `k`
remaining indices starting at index `i`, compute element `i` of the
expression against the *current* store (fused evaluation, §4.2) and write
it into container `d`, then continue with index `i+1`. -/
def directLoopFrom (d : Nat) (e : VExpr) : Nat → Nat → Store → Store
  | _, 0, st => st
  | i, k + 1, st =>
      directLoopFrom d e (i + 1) k (st.update d ((st d).set i (elemAt (veval st e) i)))

/-- Modelled from the spec: the direct-evaluation strategy for plain
assignment — resize the destination to the result shape when needed, then
write every element in index order 0..n-1 against the current store. -/
def directAssign (st : Store) (d : Nat) (e : VExpr) : Store :=
  let n := vshape st e
  let st1 := if (st d).length = n then st else st.update d (resizeVec n)
  directLoopFrom d e 0 n st1

/-- Modelled from the spec: execute `dst = expr` with the given strategy —
either the direct write loop, or evaluation into a temporary that is then
transferred into the destination (§4.4). -/
def executeAssignWith : Strategy → Store → Nat → VExpr → Store
  | .direct, st, d, e => directAssign st d e
  | .temporary, st, d, e => st.update d (veval st e)

/-- The engine's error kind relevant here (§7). -/
inductive EngineError where
  | dimensionMismatch
  deriving DecidableEq

/-- Modelled from the spec: the shape admission check of §4.4 step 1 — a
resizable destination accepts any result shape; a non-resizable one only
its current shape. -/
def dimOK (st : Store) (d : Nat) (resizable : Bool) (e : VExpr) : Bool :=
  resizable || (vshape st e == (st d).length)

/-- Modelled from the spec: execute `dst = expr` with an explicit
strategy, after the shape admission check of §4.4 step 1. -/
def executeAssignS (s : Strategy) (st : Store) (d : Nat) (resizable : Bool)
    (e : VExpr) : Except EngineError Store :=
  if dimOK st d resizable e then .ok (executeAssignWith s st d e)
  else .error .dimensionMismatch

/-- Modelled from the spec: the full assignment algorithm of §4.4 for
`dst = expr` — shape check, oracle-selected strategy, execution. -/
def executeAssign (st : Store) (d : Nat) (resizable : Bool) (e : VExpr) :
    Except EngineError Store :=
  executeAssignS (selectStrategy d e) st d resizable e

/-- The observable outcome of the test scheme `R = E; D = E` used by the
aliasing tests: run `R = E` into the fresh destination `r`, then `D = E`
into `d` with strategy `s`, and report the final contents of `d` and `r`
(`none` when either assignment fails). -/
def roundTrip (s : Strategy) (st : Store) (d r : Nat) (rz : Bool) (e : VExpr) :
    Option (Vecz × Vecz) :=
  match executeAssign st r true e with
  | .error _ => none
  | .ok st1 =>
      match executeAssignS s st1 d rz e with
      | .error _ => none
      | .ok st2 => some (st2 d, st2 r)

/-- The final contents of destination `d` after `d = e`, or `none` on
error. -/
def assignValueAt (st : Store) (d : Nat) (rz : Bool) (e : VExpr) : Option Vecz :=
  match executeAssign st d rz e with
  | .ok st' => some (st' d)
  | .error _ => none

/-! ### Auxiliary lemmas about stores and element access -/

theorem Store.update_update (st : Store) (d : Nat) (v w : Vecz) :
    (st.update d v).update d w = st.update d w := by
  funext i
  by_cases h : i = d <;> simp [Store.update, h]

theorem elemAt_congr_of_drop {u w : Vecz} {i : Nat} (h : u.drop i = w.drop i) :
    elemAt u i = elemAt w i := by
  have huw : u[i]? = w[i]? := by
    have hu := List.getElem?_drop u i 0
    have hw := List.getElem?_drop w i 0
    rw [h, hw] at hu
    simpa using hu.symm
  simp [elemAt, List.getD_eq_getElem?_getD, huw]

theorem elemAt_zipWith (f : Int → Int → Int) (xs ys : List Int) (i : Nat)
    (hx : i < xs.length) (hy : i < ys.length) :
    elemAt (List.zipWith f xs ys) i = f (elemAt xs i) (elemAt ys i) := by
  induction xs generalizing ys i with
  | nil => simp at hx
  | cons x xs ih =>
      cases ys with
      | nil => simp at hy
      | cons y ys =>
          cases i with
          | zero => simp [elemAt]
          | succ j =>
              simp only [List.zipWith_cons_cons]
              have hx' : j < xs.length := by simpa using hx
              have hy' : j < ys.length := by simpa using hy
              simpa [elemAt] using ih ys j hx' hy'

/-! ### Pure evaluation is unaffected by writes to unused containers -/

theorem veval_update_unused (st : Store) (v : Vecz) (d : Nat) :
    ∀ e : VExpr, usesVar e d = false → veval (st.update d v) e = veval st e := by
  intro e
  induction e with
  | var i =>
      intro h
      simp only [usesVar, beq_eq_false_iff_ne, ne_eq] at h
      simp [veval, Store.update_other st d v h]
  | lit w => intro _; rfl
  | add e1 e2 ih1 ih2 =>
      intro h
      simp only [usesVar, Bool.or_eq_false_iff] at h
      simp [veval, ih1 h.1, ih2 h.2]
  | matvec M e ih =>
      intro h
      simp only [usesVar] at h
      simp [veval, ih h]

theorem vshape_update_unused (st : Store) (v : Vecz) (d : Nat) :
    ∀ e : VExpr, usesVar e d = false → vshape (st.update d v) e = vshape st e := by
  intro e
  induction e with
  | var i =>
      intro h
      simp only [usesVar, beq_eq_false_iff_ne, ne_eq] at h
      simp [vshape, Store.update_other st d v h]
  | lit w => intro _; rfl
  | add e1 e2 ih1 ih2 =>
      intro h
      simp only [usesVar, Bool.or_eq_false_iff] at h
      simp [vshape, ih1 h.1]
  | matvec M e ih => intro _; rfl

theorem wfB_update_unused (st : Store) (v : Vecz) (d : Nat) :
    ∀ e : VExpr, usesVar e d = false → wfB (st.update d v) e = wfB st e := by
  intro e
  induction e with
  | var i => intro _; rfl
  | lit w => intro _; rfl
  | add e1 e2 ih1 ih2 =>
      intro h
      simp only [usesVar, Bool.or_eq_false_iff] at h
      simp [wfB, ih1 h.1, ih2 h.2,
        vshape_update_unused st v d e1 h.1, vshape_update_unused st v d e2 h.2]
  | matvec M e ih =>
      intro h
      simp only [usesVar] at h
      simp [wfB, ih h]

/-- A well-formed expression evaluates to a vector of its declared shape. -/
theorem veval_length (st : Store) :
    ∀ e : VExpr, wfB st e = true → (veval st e).length = vshape st e := by
  intro e
  induction e with
  | var i => intro _; rfl
  | lit v => intro _; rfl
  | add e1 e2 ih1 ih2 =>
      intro h
      simp only [wfB, Bool.and_eq_true, beq_iff_eq] at h
      simp [veval, vshape, ih1 h.1.1, ih2 h.1.2, h.2]
  | matvec M e ih =>
      intro _
      simp [veval, vshape, matVecMul]

/-! ### The direct write loop computes the intended target -/

/-- Invariant proof for the direct write loop: if every element query at
index `i` against any store whose destination buffer still holds the
original contents from index `i` on returns element `i` of `t`, then the
loop transforms the buffer into `t`. -/
theorem directLoopFrom_master (st : Store) (d : Nat) (e : VExpr) (t b0 : Vecz)
    (n : Nat) (ht : t.length = n) (hb0 : b0.length = n)
    (H : ∀ i b, i < n → b.length = n → b.drop i = b0.drop i →
        elemAt (veval (st.update d b) e) i = elemAt t i) :
    ∀ k i, i + k = n →
      directLoopFrom d e i k (st.update d (t.take i ++ b0.drop i)) = st.update d t := by
  intro k
  induction k with
  | zero =>
      intro i hi
      have hin : i = n := by omega
      subst hin
      have h1 : t.take i = t := by
        rw [← ht]; exact List.take_length t
      have h2 : b0.drop i = [] := by
        apply List.drop_eq_nil_of_le; omega
      simp [directLoopFrom, h1, h2]
  | succ k ih =>
      intro i hi
      have hin : i < n := by omega
      have hlen_take : (t.take i).length = i := by
        rw [List.length_take]; omega
      have hblen : (t.take i ++ b0.drop i).length = n := by
        rw [List.length_append, hlen_take, List.length_drop]; omega
      have hbdrop : (t.take i ++ b0.drop i).drop i = b0.drop i := by
        rw [List.drop_append_eq_append_drop]
        have h0 : (t.take i).drop i = [] := by
          apply List.drop_eq_nil_of_le; omega
        rw [h0, hlen_take]
        simp
      have hval : elemAt (veval (st.update d (t.take i ++ b0.drop i)) e) i = elemAt t i :=
        H i _ hin hblen hbdrop
      have hset : (t.take i ++ b0.drop i).set i (elemAt t i) =
          t.take (i + 1) ++ b0.drop (i + 1) := by
        rw [List.set_eq_take_cons_drop _ (by omega : i < (t.take i ++ b0.drop i).length)]
        have h1 : (t.take i ++ b0.drop i).take i = t.take i := by
          rw [List.take_append_eq_append_take, hlen_take]
          simp [List.take_take]
        have h2 : (t.take i ++ b0.drop i).drop (i + 1) = b0.drop (i + 1) := by
          rw [List.drop_append_eq_append_drop]
          have h0 : (t.take i).drop (i + 1) = [] := by
            apply List.drop_eq_nil_of_le; omega
          rw [h0, hlen_take]
          have h3 : i + 1 - i = 1 := by omega
          rw [h3, List.drop_drop]
          simp
        have h3 : t.take (i + 1) = t.take i ++ [elemAt t i] := by
          rw [List.take_succ]
          congr 1
          have hit : i < t.length := by omega
          simp [elemAt, List.getD_eq_getElem?_getD, List.getElem?_eq_getElem hit]
        rw [h1, h2, h3]
        simp
      show directLoopFrom d e i (k + 1) (st.update d (t.take i ++ b0.drop i)) = st.update d t
      rw [directLoopFrom]
      rw [Store.update_same, Store.update_update, hval, hset]
      exact ih (i + 1) (by omega)

/-- Direct evaluation into a destination that the expression does not
alias produces exactly the pure evaluation result. -/
theorem directAssign_eq_of_unused (st : Store) (d : Nat) (e : VExpr)
    (h : usesVar e d = false) (hwf : wfB st e = true) :
    directAssign st d e = st.update d (veval st e) := by
  have ht : (veval st e).length = vshape st e := veval_length st e hwf
  have H : ∀ i b, i < vshape st e → b.length = vshape st e →
      b.drop i = (if (st d).length = vshape st e then st d else resizeVec (vshape st e)).drop i →
      elemAt (veval (st.update d b) e) i = elemAt (veval st e) i := by
    intro i b _ _ _
    rw [veval_update_unused st b d e h]
  show directLoopFrom d e 0 (vshape st e)
      (if (st d).length = vshape st e then st else st.update d (resizeVec (vshape st e)))
      = st.update d (veval st e)
  by_cases hlen : (st d).length = vshape st e
  · rw [if_pos hlen]
    have hmast := directLoopFrom_master st d e (veval st e) (st d) (vshape st e)
      ht hlen (by simpa [hlen] using H) (vshape st e) 0 (by omega)
    simpa [Store.update_self] using hmast
  · rw [if_neg hlen]
    have hb0 : (resizeVec (vshape st e)).length = vshape st e := by
      simp [resizeVec]
    have hmast := directLoopFrom_master st d e (veval st e) (resizeVec (vshape st e))
      (vshape st e) ht hb0 (by simpa [hlen] using H) (vshape st e) 0 (by omega)
    simpa using hmast

/-- Direct in-place evaluation in the single-operand identity case (the
destination is exactly one top-level operand of an element-wise addition)
produces exactly the pure evaluation result: traversing indices 0..n-1,
each output element depends only on input elements at the same index, and
index `i` of the destination is only read before it is overwritten. -/
theorem directAssign_eq_of_safeInPlace (st : Store) (d : Nat) (e : VExpr)
    (h : safeInPlace d e = true) (hwf : wfB st e = true) :
    directAssign st d e = st.update d (veval st e) := by
  cases e with
  | var i => simp [safeInPlace] at h
  | lit v => simp [safeInPlace] at h
  | matvec M e => simp [safeInPlace] at h
  | add e1 e2 =>
    simp only [safeInPlace, Bool.or_eq_true, Bool.and_eq_true, decide_eq_true_eq,
      Bool.not_eq_true'] at h
    simp only [wfB, Bool.and_eq_true, beq_iff_eq] at hwf
    obtain ⟨⟨hwf1, hwf2⟩, hsh⟩ := hwf
    rcases h with ⟨he1, he2⟩ | ⟨he2, he1⟩
    · -- e = (var d) + e2 with e2 not reading d
      subst he1
      have hn : vshape st (VExpr.add (.var d) e2) = (st d).length := rfl
      have hlen2 : (veval st e2).length = (st d).length := by
        rw [veval_length st e2 hwf2, ← hsh]; rfl
      have ht : (veval st (VExpr.add (.var d) e2)).length = (st d).length := by
        simp [veval, hlen2]
      have H : ∀ i b, i < (st d).length → b.length = (st d).length →
          b.drop i = (st d).drop i →
          elemAt (veval (st.update d b) (VExpr.add (.var d) e2)) i =
            elemAt (veval st (VExpr.add (.var d) e2)) i := by
        intro i b hin hblen hbdrop
        have hb : veval (st.update d b) (VExpr.add (.var d) e2) =
            List.zipWith (· + ·) b (veval st e2) := by
          simp [veval, Store.update_same, veval_update_unused st b d e2 he2]
        rw [hb]
        show elemAt (List.zipWith (· + ·) b (veval st e2)) i =
          elemAt (List.zipWith (· + ·) (st d) (veval st e2)) i
        rw [elemAt_zipWith _ _ _ _ (by omega) (by omega),
          elemAt_zipWith _ _ _ _ (by omega) (by omega),
          elemAt_congr_of_drop hbdrop]
      show directLoopFrom d (VExpr.add (.var d) e2) 0 (vshape st (VExpr.add (.var d) e2))
          (if (st d).length = vshape st (VExpr.add (.var d) e2) then st
           else st.update d (resizeVec (vshape st (VExpr.add (.var d) e2))))
          = st.update d (veval st (VExpr.add (.var d) e2))
      rw [hn, if_pos rfl]
      have hmast := directLoopFrom_master st d (VExpr.add (.var d) e2)
        (veval st (VExpr.add (.var d) e2)) (st d) ((st d).length) ht rfl H
        ((st d).length) 0 (by omega)
      simpa [Store.update_self] using hmast
    · -- e = e1 + (var d) with e1 not reading d
      subst he2
      have hsh' : vshape st e1 = (st d).length := by
        simpa [vshape] using hsh
      have hn : vshape st (VExpr.add e1 (.var d)) = (st d).length := hsh'
      have hlen1 : (veval st e1).length = (st d).length := by
        rw [veval_length st e1 hwf1, hsh']
      have ht : (veval st (VExpr.add e1 (.var d))).length = (st d).length := by
        simp [veval, hlen1]
      have H : ∀ i b, i < (st d).length → b.length = (st d).length →
          b.drop i = (st d).drop i →
          elemAt (veval (st.update d b) (VExpr.add e1 (.var d))) i =
            elemAt (veval st (VExpr.add e1 (.var d))) i := by
        intro i b hin hblen hbdrop
        have hb : veval (st.update d b) (VExpr.add e1 (.var d)) =
            List.zipWith (· + ·) (veval st e1) b := by
          simp [veval, Store.update_same, veval_update_unused st b d e1 he1]
        rw [hb]
        show elemAt (List.zipWith (· + ·) (veval st e1) b) i =
          elemAt (List.zipWith (· + ·) (veval st e1) (st d)) i
        rw [elemAt_zipWith _ _ _ _ (by omega) (by omega),
          elemAt_zipWith _ _ _ _ (by omega) (by omega),
          elemAt_congr_of_drop hbdrop]
      show directLoopFrom d (VExpr.add e1 (.var d)) 0 (vshape st (VExpr.add e1 (.var d)))
          (if (st d).length = vshape st (VExpr.add e1 (.var d)) then st
           else st.update d (resizeVec (vshape st (VExpr.add e1 (.var d)))))
          = st.update d (veval st (VExpr.add e1 (.var d)))
      rw [hn, if_pos rfl]
      have hmast := directLoopFrom_master st d (VExpr.add e1 (.var d))
        (veval st (VExpr.add e1 (.var d))) (st d) ((st d).length) ht rfl H
        ((st d).length) 0 (by omega)
      simpa [Store.update_self] using hmast

/-- Any admissible strategy produces exactly the pure evaluation result:
the two assignment paths are observationally indistinguishable. -/
theorem executeAssignWith_eq (s : Strategy) (st : Store) (d : Nat) (e : VExpr)
    (hs : strategyOK d e s = true) (hwf : wfB st e = true) :
    executeAssignWith s st d e = st.update d (veval st e) := by
  cases s with
  | temporary => rfl
  | direct =>
      simp only [strategyOK, Bool.or_eq_true, Bool.not_eq_true'] at hs
      rcases hs with h | h
      · exact directAssign_eq_of_unused st d e h hwf
      · exact directAssign_eq_of_safeInPlace st d e h hwf

/-- The oracle always selects an admissible strategy. -/
theorem selectStrategy_ok (d : Nat) (e : VExpr) :
    strategyOK d e (selectStrategy d e) = true := by
  unfold selectStrategy
  by_cases h1 : usesVar e d = false
  · simp [h1, strategyOK]
  · by_cases h2 : safeInPlace d e <;> simp [h1, h2, strategyOK]

/-- Executing the aliasing test scheme `R = E; D = E` with any admissible
strategy for `D` succeeds and leaves both destinations holding the pure
evaluation of `E` against the initial store. -/
theorem roundTrip_spec (st : Store) (d r : Nat) (e : VExpr) (s : Strategy)
    (rz : Bool) (hwf : wfB st e = true) (hshape : vshape st e = (st d).length)
    (hfresh : usesVar e r = false) (hrd : r ≠ d) (hs : strategyOK d e s = true) :
    roundTrip s st d r rz e = some (veval st e, veval st e) := by
  have h1 : executeAssign st r true e = .ok (st.update r (veval st e)) := by
    unfold executeAssign executeAssignS
    rw [if_pos (by simp [dimOK])]
    rw [executeAssignWith_eq _ st r e (selectStrategy_ok r e) hwf]
  have hwf1 : wfB (st.update r (veval st e)) e = true := by
    rw [wfB_update_unused st _ r e hfresh]; exact hwf
  have hv1 : veval (st.update r (veval st e)) e = veval st e :=
    veval_update_unused st _ r e hfresh
  have hsh1 : vshape (st.update r (veval st e)) e =
      ((st.update r (veval st e)) d).length := by
    rw [vshape_update_unused st _ r e hfresh,
      Store.update_other st r _ (Ne.symm hrd)]
    exact hshape
  have h2 : executeAssignS s (st.update r (veval st e)) d rz e =
      .ok ((st.update r (veval st e)).update d (veval st e)) := by
    unfold executeAssignS
    rw [if_pos (by simp [dimOK, hsh1])]
    rw [executeAssignWith_eq s _ d e hs hwf1, hv1]
  simp only [roundTrip, h1, h2]
  rw [Store.update_same, Store.update_other _ _ _ hrd, Store.update_same]

/-- C1: for every expression `E` and destination `D` whose shape matches
`E`'s result shape, performing the aliased assignment `D = E` and
separately evaluating `R = E` into a fresh destination `R` that shares no
storage with any operand of `E` produces `D == R`, whichever admissible
assignment strategy (direct evaluation or evaluation through a temporary)
was selected for `D` — both final contents equal the pure evaluation of
`E` against the initial store. -/
theorem assign_roundtrip_strategy_independent (st : Store) (d r : Nat)
    (e : VExpr) (s : Strategy) (rz : Bool) (hwf : wfB st e = true)
    (hshape : vshape st e = (st d).length) (hfresh : usesVar e r = false)
    (hrd : r ≠ d) (hs : strategyOK d e s = true) :
    roundTrip s st d r rz e = some (veval st e, veval st e) :=
  roundTrip_spec st d r e s rz hwf hshape hfresh hrd hs

/-- Witness for C1: the aliased assignment `v0 = v0 + v1` executed with
the direct (in-place) strategy agrees with the fresh evaluation. -/
theorem assign_roundtrip_strategy_independent_witness :
    roundTrip Strategy.direct (fun _ => [1, 2]) 0 2 false
      (VExpr.add (.var 0) (.var 1)) = some ([2, 4], [2, 4]) :=
  assign_roundtrip_strategy_independent (fun _ => [1, 2]) 0 2
    (VExpr.add (.var 0) (.var 1)) Strategy.direct false (by decide) (by decide)
    (by decide) (by decide) (by decide)

/-- C4: for dense vectors `v`, `w` of equal length, the self-referencing
assignment `v = v + w` is executed by the oracle with the direct strategy
(in place, index order 0..n-1) and yields the same contents as evaluating
`result = v + w` into a fresh destination: `v == result`, both equal to
the element-wise sum. -/
theorem inplace_single_operand_add (st : Store) (dv wv rv : Nat)
    (hvw : dv ≠ wv) (hrd : rv ≠ dv) (hrw : usesVar (VExpr.add (.var dv) (.var wv)) rv = false)
    (hlen : (st dv).length = (st wv).length) :
    selectStrategy dv (VExpr.add (.var dv) (.var wv)) = Strategy.direct ∧
    roundTrip Strategy.direct st dv rv true (VExpr.add (.var dv) (.var wv)) =
      some (List.zipWith (· + ·) (st dv) (st wv),
            List.zipWith (· + ·) (st dv) (st wv)) := by
  have hwd : (wv == dv) = false := beq_eq_false_iff_ne.mpr (Ne.symm hvw)
  have hsafe : safeInPlace dv (VExpr.add (.var dv) (.var wv)) = true := by
    simp [safeInPlace, usesVar, hwd]
  constructor
  · unfold selectStrategy
    rw [if_neg (by simp [usesVar]), if_pos hsafe]
  · have hres := roundTrip_spec st dv rv (VExpr.add (.var dv) (.var wv))
      Strategy.direct true
      (by simp [wfB, vshape, hlen]) rfl hrw hrd
      (by simp [strategyOK, hsafe])
    simpa [veval] using hres

/-- Witness for C4: `v0 = v0 + v1` for `v0 = [1, 2, 3]`, `v1 = [10, 0, 5]`
is evaluated in place and both destinations end as `[11, 2, 8]`. -/
theorem inplace_single_operand_add_witness :
    selectStrategy 0 (VExpr.add (.var 0) (.var 1)) = Strategy.direct ∧
    roundTrip Strategy.direct
      (fun i => if i = 0 then [1, 2, 3] else if i = 1 then [10, 0, 5] else []) 0 2 true
      (VExpr.add (.var 0) (.var 1)) = some ([11, 2, 8], [11, 2, 8]) :=
  inplace_single_operand_add
    (fun i => if i = 0 then [1, 2, 3] else if i = 1 then [10, 0, 5] else []) 0 1 2
    (by decide) (by decide) (by decide) (by decide)

/-- C5: with `A` the 3×4 sparse matrix of the fixture and `a` the sparse
vector `[-1, 0, -3, 2]`, `result = A*a` followed by the aliased assignment
of `A*a` to `a`'s own storage raises no `DimensionMismatch`: the engine
selects the temporary path, the destination is reshaped to the 3-element
result, it equals `result` exactly, and matches the naive row-by-row dot
product reference. -/
theorem sparse_matvec_alias_reshapes :
    (let A : Matz := [[-1, 0, -2, 0], [0, 2, -3, 1], [0, 1, 2, 2]]
     let a : Vecz := [-1, 0, -3, 2]
     let st : Store := fun i => if i = 0 then a else []
     let e : VExpr := VExpr.matvec A (.var 0)
     selectStrategy 0 e = Strategy.temporary ∧
     assignValueAt st 0 true e = some (matVecMul A a) ∧
     matVecMul A a = [7, 11, -2] ∧
     A.map (fun row => dotProd row a) = [7, 11, -2] ∧
     ([7, 11, -2] : Vecz).length = 3) := by
  decide

/-! ### The matrix assignment engine (modelled from the spec) -/

/-- Number of columns of a row-major matrix (its rows all share one
length; we read it off the first row). -/
def colsOf (M : Matz) : Nat :=
  (M.headD []).length

/-- Transpose of a row-major matrix: row `j` of the result is column `j`
of the operand. -/
def transposeM (M : Matz) : Matz :=
  (List.range (colsOf M)).map (fun j => M.map (fun row => row.getD j 0))

/-- Matrix·matrix product: entry `(i, j)` is the dot product of row `i` of
the left operand with column `j` of the right operand. -/
def matMul (A B : Matz) : Matz :=
  A.map (fun row => (transposeM B).map (fun col => dotProd row col))

/-- The store of named matrix containers. -/
abbrev MStore := Nat → Matz

namespace MStore

/-- Overwrite the contents of matrix container `d`. -/
def update (st : MStore) (d : Nat) (M : Matz) : MStore :=
  fun i => if i = d then M else st i

theorem updateM_same (st : MStore) (d : Nat) (M : Matz) :
    st.update d M d = M := by
  simp [update]

theorem updateM_other (st : MStore) (d : Nat) (M : Matz) {i : Nat} (h : i ≠ d) :
    st.update d M i = st i := by
  simp [update, h]

theorem updateM_self (st : MStore) (d : Nat) : st.update d (st d) = st := by
  funext i
  by_cases h : i = d <;> simp [update, h]

theorem updateM_update (st : MStore) (d : Nat) (M N : Matz) :
    (st.update d M).update d N = st.update d N := by
  funext i
  by_cases h : i = d <;> simp [update, h]

end MStore

/-- Modelled from the spec: matrix expression nodes — stored-container
leaves, literals, matrix·matrix multiplication and transpose (§4.2). -/
inductive MExpr where
  | var (i : Nat)
  | lit (M : Matz)
  | mul (e1 e2 : MExpr)
  | trans (e : MExpr)
  deriving DecidableEq

/-- Modelled from the spec: pure evaluation of a matrix expression. -/
def meval (st : MStore) : MExpr → Matz
  | .var i => st i
  | .lit M => M
  | .mul e1 e2 => matMul (meval st e1) (meval st e2)
  | .trans e => transposeM (meval st e)

/-- Modelled from the spec: the aliasing oracle's identity check for
matrix expressions — does container `d` appear in the operand tree? -/
def musesVar : MExpr → Nat → Bool
  | .var i, d => i == d
  | .lit _, _ => false
  | .mul e1 e2, d => musesVar e1 d || musesVar e2 d
  | .trans e, d => musesVar e d

/-- Modelled from the spec: strategy selection for plain matrix
assignment `dst = expr` (§4.4): both multiplication (a reduction mixing
many source indices) and transpose (a transformation reordering index
dependencies) make any aliasing unsafe for in-place evaluation, so the
oracle has no matrix single-operand in-place case: no aliasing → direct,
any aliasing → temporary. -/
def selectStrategyM (d : Nat) (e : MExpr) : Strategy :=
  if musesVar e d = false then .direct else .temporary

/-- Write `k` rows of the expression's current evaluation into container
`d`, starting at row `i`, each row computed against the current store. -/
def mdirectLoopFrom (d : Nat) (e : MExpr) : Nat → Nat → MStore → MStore
  | _, 0, st => st
  | i, k + 1, st =>
      mdirectLoopFrom d e (i + 1) k
        (st.update d ((st d).set i ((meval st e).getD i [])))

/-- Modelled from the spec: the direct-evaluation strategy for plain
matrix assignment — resize to the result's row count when needed, then
write the rows in order against the current store. -/
def mdirectAssign (st : MStore) (d : Nat) (e : MExpr) : MStore :=
  let n := (meval st e).length
  let st1 := if (st d).length = n then st else st.update d (List.replicate n [])
  mdirectLoopFrom d e 0 n st1

/-- Modelled from the spec: execute plain matrix assignment `dst = expr`
with the given strategy. -/
def mexecuteAssignWith : Strategy → MStore → Nat → MExpr → MStore
  | .direct, st, d, e => mdirectAssign st d e
  | .temporary, st, d, e => st.update d (meval st e)

/-- Modelled from the spec: plain matrix assignment with the
oracle-selected strategy. -/
def massign (st : MStore) (d : Nat) (e : MExpr) : MStore :=
  mexecuteAssignWith (selectStrategyM d e) st d e

/-- Modelled from the spec (§4.4 step 4): compound matrix-multiply
assignment `dst *= expr` always takes the temporary path, because the
multiplication reads every prior element of `dst` to produce every new
element; in-place evaluation is never selected, regardless of the
single-operand check. -/
def selectStrategyMulAssignM (_d : Nat) (_e : MExpr) : Strategy :=
  .temporary

/-- Modelled from the spec: a hypothetical in-place compound multiply
loop — row `i` of the destination is replaced by row `i` of
`dst * eval(expr)` computed against the current, partially overwritten
destination.  The engine never selects this path. -/
def minplaceMulAssignLoop (d : Nat) (e : MExpr) : Nat → Nat → MStore → MStore
  | _, 0, st => st
  | i, k + 1, st =>
      minplaceMulAssignLoop d e (i + 1) k
        (st.update d ((st d).set i ((matMul (st d) (meval st e)).getD i [])))

/-- Modelled from the spec: execute `dst *= expr` with the given
strategy: the temporary path evaluates `expr` into a temporary against
the original store and then multiplies the destination's original
contents with it; the direct path would update the destination in
place. -/
def mmultAssignWith : Strategy → MStore → Nat → MExpr → MStore
  | .temporary, st, d, e =>
      let tmp := meval st e
      st.update d (matMul (st d) tmp)
  | .direct, st, d, e => minplaceMulAssignLoop d e 0 (st d).length st

/-- Modelled from the spec: compound matrix-multiply assignment
`dst *= expr` with the strategy the engine always selects for it. -/
def mmultAssign (st : MStore) (d : Nat) (e : MExpr) : MStore :=
  mmultAssignWith (selectStrategyMulAssignM d e) st d e

/-- A matrix is square when every row is as long as the list of rows. -/
def isSquareM (M : Matz) : Prop :=
  ∀ row ∈ M, row.length = M.length

instance (M : Matz) : Decidable (isSquareM M) :=
  inferInstanceAs (Decidable (∀ row ∈ M, row.length = M.length))

/-! ### Correctness of the matrix assignment paths -/

theorem meval_update_unused (st : MStore) (M : Matz) (d : Nat) :
    ∀ e : MExpr, musesVar e d = false → meval (st.update d M) e = meval st e := by
  intro e
  induction e with
  | var i =>
      intro h
      simp only [musesVar, beq_eq_false_iff_ne, ne_eq] at h
      simp [meval, MStore.updateM_other st d M h]
  | lit N => intro _; rfl
  | mul e1 e2 ih1 ih2 =>
      intro h
      simp only [musesVar, Bool.or_eq_false_iff] at h
      simp [meval, ih1 h.1, ih2 h.2]
  | trans e ih =>
      intro h
      simp only [musesVar] at h
      simp [meval, ih h]

/-- Invariant proof for the row-wise direct matrix write loop, for an
expression that does not read the destination. -/
theorem mdirectLoopFrom_unused (st : MStore) (d : Nat) (e : MExpr)
    (hu : musesVar e d = false) (b0 : Matz)
    (hb0 : b0.length = (meval st e).length) :
    ∀ k i, i + k = (meval st e).length →
      mdirectLoopFrom d e i k
          (st.update d ((meval st e).take i ++ b0.drop i)) =
        st.update d (meval st e) := by
  intro k
  induction k with
  | zero =>
      intro i hi
      have hieq : i = (meval st e).length := by omega
      subst hieq
      have h2 : b0.drop (meval st e).length = [] := by
        apply List.drop_eq_nil_of_le; omega
      simp [mdirectLoopFrom, h2, List.take_length]
  | succ k ih =>
      intro i hi
      have hin : i < (meval st e).length := by omega
      have hlen_take : ((meval st e).take i).length = i := by
        rw [List.length_take]; omega
      have hblen : ((meval st e).take i ++ b0.drop i).length = (meval st e).length := by
        rw [List.length_append, hlen_take, List.length_drop]; omega
      have hval : (meval (st.update d ((meval st e).take i ++ b0.drop i)) e).getD i [] =
          (meval st e).getD i [] := by
        rw [meval_update_unused st _ d e hu]
      have hset : ((meval st e).take i ++ b0.drop i).set i ((meval st e).getD i []) =
          (meval st e).take (i + 1) ++ b0.drop (i + 1) := by
        rw [List.set_eq_take_cons_drop _ (by omega : i < ((meval st e).take i ++ b0.drop i).length)]
        have h1 : ((meval st e).take i ++ b0.drop i).take i = (meval st e).take i := by
          rw [List.take_append_eq_append_take, hlen_take]
          simp [List.take_take]
        have h2 : ((meval st e).take i ++ b0.drop i).drop (i + 1) = b0.drop (i + 1) := by
          rw [List.drop_append_eq_append_drop]
          have h0 : ((meval st e).take i).drop (i + 1) = [] := by
            apply List.drop_eq_nil_of_le; omega
          rw [h0, hlen_take]
          have h3 : i + 1 - i = 1 := by omega
          rw [h3, List.drop_drop]
          simp
        have h3 : (meval st e).take (i + 1) =
            (meval st e).take i ++ [(meval st e).getD i []] := by
          rw [List.take_succ]
          congr 1
          simp [List.getD_eq_getElem?_getD, List.getElem?_eq_getElem hin]
        rw [h1, h2, h3]
        simp
      show mdirectLoopFrom d e i (k + 1)
          (st.update d ((meval st e).take i ++ b0.drop i)) = st.update d (meval st e)
      rw [mdirectLoopFrom]
      rw [MStore.updateM_same, MStore.updateM_update, hval, hset]
      exact ih (i + 1) (by omega)

/-- Plain matrix assignment, with the strategy the oracle selects, always
produces exactly the pure evaluation of the right-hand side against the
initial store. -/
theorem massign_eq (st : MStore) (d : Nat) (e : MExpr) :
    massign st d e = st.update d (meval st e) := by
  unfold massign selectStrategyM
  by_cases h : musesVar e d = false
  · rw [if_pos h]
    show mdirectAssign st d e = st.update d (meval st e)
    show mdirectLoopFrom d e 0 (meval st e).length
        (if (st d).length = (meval st e).length then st
         else st.update d (List.replicate (meval st e).length []))
        = st.update d (meval st e)
    by_cases hlen : (st d).length = (meval st e).length
    · rw [if_pos hlen]
      have hmast := mdirectLoopFrom_unused st d e h (st d) hlen
        ((meval st e).length) 0 (by omega)
      simpa [MStore.updateM_self] using hmast
    · rw [if_neg hlen]
      have hmast := mdirectLoopFrom_unused st d e h
        (List.replicate (meval st e).length []) (by simp)
        ((meval st e).length) 0 (by omega)
      simpa using hmast
  · rw [if_neg h]
    rfl

/-- Compound matrix-multiply assignment through the temporary path:
`dst *= expr` multiplies the destination's original contents with the
temporary holding the evaluation of `expr` against the original store. -/
theorem mmultAssign_eq (st : MStore) (d : Nat) (e : MExpr) :
    mmultAssign st d e = st.update d (matMul (st d) (meval st e)) :=
  rfl

theorem massign_app_same (st : MStore) (d : Nat) (e : MExpr) :
    (massign st d e) d = meval st e := by
  rw [massign_eq]; exact MStore.updateM_same st d _

theorem massign_app_other (st : MStore) (d : Nat) (e : MExpr) {i : Nat}
    (h : i ≠ d) : (massign st d e) i = st i := by
  rw [massign_eq]; exact MStore.updateM_other st d _ h

theorem mmultAssign_app_same (st : MStore) (d : Nat) (e : MExpr) :
    (mmultAssign st d e) d = matMul (st d) (meval st e) := by
  rw [mmultAssign_eq]; exact MStore.updateM_same st d _

theorem mmultAssign_app_other (st : MStore) (d : Nat) (e : MExpr) {i : Nat}
    (h : i ≠ d) : (mmultAssign st d e) i = st i := by
  rw [mmultAssign_eq]; exact MStore.updateM_other st d _ h

/-- The in-place compound-multiply path the engine never selects would be
wrong: for `C *= C` with `C = [[1,1],[1,1]]` it corrupts rows still
needed by later reads, diverging from the temporary path. -/
theorem minplaceMulAssign_corrupts_example :
    minplaceMulAssignLoop 0 (.var 0) 0 2
        (fun i => if i = 0 then [[1, 1], [1, 1]] else []) 0 ≠
      (mmultAssign (fun i => if i = 0 then [[1, 1], [1, 1]] else []) 0 (.var 0)) 0 := by
  decide

/-- The statement sequence `result = M; result *= M; N = M; N *= M` of the
compound-multiply aliasing test, with `M` stored at `m`, `result` at `r`
and `N` at `nv`. -/
def mulAssignTestProgram (st0 : MStore) (m r nv : Nat) : MStore :=
  mmultAssign (massign (mmultAssign (massign st0 r (.var m)) r (.var m)) nv (.var m))
    nv (.var m)

/-- C2: for every square matrix `M`, executing `result = M; result *= M`
and `N = M; N *= M` yields `N == result`: the compound matrix-multiply
assignment always selects the temporary path (never in place), and its
outcome equals direct evaluation of the product `M * M` against the
destination's original contents. -/
theorem compound_matrix_multiply_via_temporary (st0 : MStore) (m r nv : Nat)
    (hmr : m ≠ r) (hmn : m ≠ nv) (hrn : r ≠ nv) (_hsq : isSquareM (st0 m)) :
    selectStrategyMulAssignM nv (MExpr.var m) = Strategy.temporary ∧
    mulAssignTestProgram st0 m r nv nv = mulAssignTestProgram st0 m r nv r ∧
    mulAssignTestProgram st0 m r nv r = matMul (st0 m) (st0 m) := by
  have hst1m : (massign st0 r (MExpr.var m)) m = st0 m :=
    massign_app_other st0 r _ hmr
  have hst1r : (massign st0 r (MExpr.var m)) r = st0 m :=
    massign_app_same st0 r _
  have h2r : (mmultAssign (massign st0 r (MExpr.var m)) r (MExpr.var m)) r =
      matMul (st0 m) (st0 m) := by
    rw [mmultAssign_app_same]
    simp only [meval]
    rw [hst1m, hst1r]
  have h2m : (mmultAssign (massign st0 r (MExpr.var m)) r (MExpr.var m)) m = st0 m := by
    rw [mmultAssign_app_other _ _ _ hmr]
    exact hst1m
  have h3nv : (massign (mmultAssign (massign st0 r (MExpr.var m)) r (MExpr.var m))
      nv (MExpr.var m)) nv = st0 m := by
    rw [massign_app_same]
    simp only [meval]
    exact h2m
  have h3m : (massign (mmultAssign (massign st0 r (MExpr.var m)) r (MExpr.var m))
      nv (MExpr.var m)) m = st0 m := by
    rw [massign_app_other _ _ _ hmn]
    exact h2m
  have h3r : (massign (mmultAssign (massign st0 r (MExpr.var m)) r (MExpr.var m))
      nv (MExpr.var m)) r = matMul (st0 m) (st0 m) := by
    rw [massign_app_other _ _ _ hrn]
    exact h2r
  refine ⟨rfl, ?_, ?_⟩
  · show (mmultAssign _ nv (MExpr.var m)) nv = (mmultAssign _ nv (MExpr.var m)) r
    rw [mmultAssign_app_same, mmultAssign_app_other _ _ _ hrn]
    simp only [meval]
    rw [h3nv, h3m, h3r]
  · show (mmultAssign _ nv (MExpr.var m)) r = matMul (st0 m) (st0 m)
    rw [mmultAssign_app_other _ _ _ hrn]
    exact h3r

/-- Witness for C2: the scheme applied to the non-symmetric square matrix
`[[1,2],[3,4]]` — both destinations end as its square `[[7,10],[15,22]]`. -/
theorem compound_matrix_multiply_via_temporary_witness :
    selectStrategyMulAssignM 2 (MExpr.var 0) = Strategy.temporary ∧
    mulAssignTestProgram (fun i => if i = 0 then [[1, 2], [3, 4]] else []) 0 1 2 2 =
      mulAssignTestProgram (fun i => if i = 0 then [[1, 2], [3, 4]] else []) 0 1 2 1 ∧
    mulAssignTestProgram (fun i => if i = 0 then [[1, 2], [3, 4]] else []) 0 1 2 1 =
      [[7, 10], [15, 22]] := by
  have h := compound_matrix_multiply_via_temporary
    (fun i => if i = 0 then [[1, 2], [3, 4]] else []) 0 1 2
    (by decide) (by decide) (by decide) (by decide)
  exact ⟨h.1, h.2.1, h.2.2.trans (by decide)⟩

/-- C3: for every square matrix `M` (stored at `m`), executing
`result = trans(M)` and then `M = trans(M)` yields `M == result`: the
transpose whose operand is the destination itself is evaluated through a
temporary, so the assignment equals the transpose of `M`'s original
contents even when `M` is not symmetric. -/
theorem transpose_alias_via_temporary (st0 : MStore) (m r : Nat) (hrm : r ≠ m)
    (_hsq : isSquareM (st0 m)) :
    selectStrategyM m (MExpr.trans (.var m)) = Strategy.temporary ∧
    (massign (massign st0 r (MExpr.trans (.var m))) m (MExpr.trans (.var m))) m =
      (massign (massign st0 r (MExpr.trans (.var m))) m (MExpr.trans (.var m))) r ∧
    (massign (massign st0 r (MExpr.trans (.var m))) m (MExpr.trans (.var m))) m =
      transposeM (st0 m) := by
  have hsel : selectStrategyM m (MExpr.trans (.var m)) = Strategy.temporary := by
    simp [selectStrategyM, musesVar]
  have h1r : (massign st0 r (MExpr.trans (.var m))) r = transposeM (st0 m) := by
    rw [massign_app_same]
    simp only [meval]
  have h1m : (massign st0 r (MExpr.trans (.var m))) m = st0 m :=
    massign_app_other st0 r _ (Ne.symm hrm)
  have h2m : (massign (massign st0 r (MExpr.trans (.var m))) m (MExpr.trans (.var m))) m =
      transposeM (st0 m) := by
    rw [massign_app_same]
    simp only [meval]
    rw [h1m]
  have h2r : (massign (massign st0 r (MExpr.trans (.var m))) m (MExpr.trans (.var m))) r =
      transposeM (st0 m) := by
    rw [massign_app_other _ _ _ hrm]
    exact h1r
  exact ⟨hsel, by rw [h2m, h2r], h2m⟩

/-- Witness for C3: transposing the non-symmetric `[[1,2],[3,4]]` in
place through its own storage yields `[[1,3],[2,4]]` in both
destinations. -/
theorem transpose_alias_via_temporary_witness :
    selectStrategyM 0 (MExpr.trans (.var 0)) = Strategy.temporary ∧
    (massign (massign (fun i => if i = 0 then [[1, 2], [3, 4]] else []) 1
        (MExpr.trans (.var 0))) 0 (MExpr.trans (.var 0))) 0 =
      (massign (massign (fun i => if i = 0 then [[1, 2], [3, 4]] else []) 1
        (MExpr.trans (.var 0))) 0 (MExpr.trans (.var 0))) 1 ∧
    (massign (massign (fun i => if i = 0 then [[1, 2], [3, 4]] else []) 1
        (MExpr.trans (.var 0))) 0 (MExpr.trans (.var 0))) 0 = [[1, 3], [2, 4]] := by
  have h := transpose_alias_via_temporary
    (fun i => if i = 0 then [[1, 2], [3, 4]] else []) 0 1 (by decide) (by decide)
  exact ⟨h.1, h.2.1, h.2.2.trans (by decide)⟩

/-! ### The `VectorSerializer` deserialization pipeline
(`blaze/math/serialization/VectorSerializer.h`) -/

/-- The header fields read from an archive by `deserializeHeader`:
version, type flag, element-type code, element size, vector size and
number of stored elements. -/
structure ArchiveHeader where
  version : Nat
  type : Nat
  elementType : Nat
  elementSize : Nat
  size : Nat
  number : Nat
  deriving DecidableEq

/-- A vector archive: the header read (or `none` when the stream fails),
the element stream for dense payloads and the (index, value) stream for
sparse payloads. -/
structure VecArchive where
  header : Option ArchiveHeader
  denseElems : List Int
  sparseElems : List (Nat × Int)
  deriving DecidableEq

/-- The destination vector as the serializer sees it: its current
contents, whether its type is resizable (`IsResizable<VT>`), and its
element-type code and element size (`TypeValueMapping<ET>::value`,
`sizeof(ET)`). -/
structure ModelVec where
  values : List Int
  resizable : Bool
  elementTypeCode : Nat
  elementSize : Nat
  deriving DecidableEq

/-- `VectorSerializer::deserializeHeader`: reads the six header fields and
throws `"Corrupt archive detected"` when the stream fails, the version is
not 1, the type flag is neither 0 (dense) nor 1 (sparse), the element
type or element size disagree with the destination's element type, the
destination is not resizable and the archived size differs from the
destination's current size, or the element count exceeds the size. -/
def deserializeHeader (arch : Option ArchiveHeader) (vec : ModelVec) :
    Except String ArchiveHeader :=
  match arch with
  | none => .error "Corrupt archive detected"
  | some h =>
      if h.version ≠ 1 ∨ (h.type ≠ 0 ∧ h.type ≠ 1) ∨
          h.elementType ≠ vec.elementTypeCode ∨
          h.elementSize ≠ vec.elementSize ∨
          (vec.resizable = false ∧ h.size ≠ vec.values.length) ∨
          h.number > h.size then
        .error "Corrupt archive detected"
      else .ok h

/-- `VectorSerializer::prepareVector`: the resizable overload resizes the
destination to the archived size and resets it; the non-resizable
overload only resets it (all elements to zero, size unchanged). -/
def prepareVector (h : ArchiveHeader) (vec : ModelVec) : ModelVec :=
  if vec.resizable then { vec with values := List.replicate h.size 0 }
  else { vec with values := List.replicate vec.values.length 0 }

/-- Element-write phase of `deserializeDenseVector`: write archived
elements into indices `0, 1, …` while the stream provides them and the
index has not reached the archived size. -/
def writeDenseFrom (elems : List Int) (i : Nat) (size : Nat) (vals : List Int) :
    List Int :=
  match elems with
  | [] => vals
  | x :: rest =>
      if i = size then vals
      else writeDenseFrom rest (i + 1) size (vals.set i x)

/-- Element-write phase of `deserializeSparseVector`: append each archived
(index, value) pair, at most `number` of them. -/
def writeSparseFrom (pairs : List (Nat × Int)) (remaining : Nat) (vals : List Int) :
    List Int :=
  match pairs, remaining with
  | _, 0 => vals
  | [], _ => vals
  | (idx, v) :: rest, n + 1 => writeSparseFrom rest n (vals.set idx v)

/-- `VectorSerializer::deserializeVector`: dispatch on the type flag to
the dense or sparse element reader; returns the written vector and
whether the archive stream was still good afterwards (it fails when it
ran out of data before the announced element count). -/
def deserializeVector (h : ArchiveHeader) (arch : VecArchive) (vec : ModelVec) :
    ModelVec × Bool :=
  if h.type = 0 then
    ({ vec with values := writeDenseFrom arch.denseElems 0 h.size vec.values },
      decide (h.size ≤ arch.denseElems.length))
  else
    ({ vec with values := writeSparseFrom arch.sparseElems h.number vec.values },
      decide (h.number ≤ arch.sparseElems.length))

/-- `VectorSerializer::deserialize`: header, prepare, element phase; the
destination is mutated in place, so the second component is the
destination's contents when the call returns or throws. -/
def deserializeRun (arch : VecArchive) (vec : ModelVec) :
    Except String Unit × ModelVec :=
  match deserializeHeader arch.header vec with
  | .error msg => (.error msg, vec)
  | .ok h =>
      let pr := deserializeVector h arch (prepareVector h vec)
      if pr.2 then (.ok (), pr.1)
      else (.error "Vector could not be deserialized", pr.1)

/-- C6: a shape mismatch against a non-resizable destination is a hard
error (`"Corrupt archive detected"`) raised before any element of the
destination is written and without attempting a resize — the destination
comes back exactly as it was; a resizable destination passes the header
check regardless of the archived size and is resized to it instead. -/
theorem nonresizable_mismatch_hard_error :
    (∀ (arch : VecArchive) (vec : ModelVec) (h : ArchiveHeader),
      arch.header = some h → vec.resizable = false → h.size ≠ vec.values.length →
      deserializeRun arch vec = (.error "Corrupt archive detected", vec)) ∧
    (∀ (arch : VecArchive) (vec : ModelVec) (h : ArchiveHeader),
      arch.header = some h → vec.resizable = true →
      h.version = 1 → (h.type = 0 ∨ h.type = 1) →
      h.elementType = vec.elementTypeCode → h.elementSize = vec.elementSize →
      h.number ≤ h.size →
      deserializeHeader arch.header vec = .ok h ∧
      (prepareVector h vec).values = List.replicate h.size 0) := by
  constructor
  · intro arch vec h harch hres hsz
    have hdr : deserializeHeader arch.header vec = .error "Corrupt archive detected" := by
      rw [harch]
      simp only [deserializeHeader]
      rw [if_pos (Or.inr (Or.inr (Or.inr (Or.inr (Or.inl ⟨hres, hsz⟩)))))]
    simp [deserializeRun, hdr]
  · intro arch vec h harch hres hv htype het hes hnum
    have hdr : deserializeHeader arch.header vec = .ok h := by
      rw [harch]
      simp only [deserializeHeader]
      rw [if_neg]
      rintro (hc | hc | hc | hc | hc | hc)
      · exact hc hv
      · rcases htype with h0 | h1
        · exact hc.1 h0
        · exact hc.2 h1
      · exact hc het
      · exact hc hes
      · rw [hres] at hc
        exact Bool.noConfusion hc.1
      · omega
    refine ⟨hdr, ?_⟩
    simp [prepareVector, hres]

/-- Witness for C6: a non-resizable 2-element destination rejects a
3-element archive and keeps its contents; a resizable one accepts it and
is resized to 3 elements. -/
theorem nonresizable_mismatch_hard_error_witness :
    deserializeRun
        ⟨some ⟨1, 0, 5, 4, 3, 3⟩, [7, 8, 9], []⟩ ⟨[1, 2], false, 5, 4⟩ =
      (.error "Corrupt archive detected", ⟨[1, 2], false, 5, 4⟩) ∧
    deserializeHeader (some ⟨1, 0, 5, 4, 3, 3⟩) ⟨[1, 2], true, 5, 4⟩ =
      .ok ⟨1, 0, 5, 4, 3, 3⟩ ∧
    (prepareVector ⟨1, 0, 5, 4, 3, 3⟩ ⟨[1, 2], true, 5, 4⟩).values =
      List.replicate 3 0 := by
  have h1 := nonresizable_mismatch_hard_error.1
    ⟨some ⟨1, 0, 5, 4, 3, 3⟩, [7, 8, 9], []⟩ ⟨[1, 2], false, 5, 4⟩ ⟨1, 0, 5, 4, 3, 3⟩
    rfl rfl (by decide)
  have h2 := nonresizable_mismatch_hard_error.2
    ⟨some ⟨1, 0, 5, 4, 3, 3⟩, [7, 8, 9], []⟩ ⟨[1, 2], true, 5, 4⟩ ⟨1, 0, 5, 4, 3, 3⟩
    rfl rfl rfl (Or.inl rfl) rfl rfl (by decide)
  exact ⟨h1, h2.1, h2.2⟩

/-- C7: every error aborts the deserializing assignment entirely with no
partial-write recovery: when the error is detected in the header phase —
before any element of the destination is written — the destination's
contents are exactly what they were before the call; and when the element
phase runs, the destination ends as whatever that phase wrote, with no
rollback on error. -/
theorem error_before_write_leaves_destination_unchanged :
    (∀ (arch : VecArchive) (vec : ModelVec) (msg : String),
      deserializeHeader arch.header vec = .error msg →
      deserializeRun arch vec = (.error msg, vec)) ∧
    (∀ (arch : VecArchive) (vec : ModelVec) (h : ArchiveHeader),
      deserializeHeader arch.header vec = .ok h →
      (deserializeRun arch vec).2 =
        (deserializeVector h arch (prepareVector h vec)).1) := by
  constructor
  · intro arch vec msg hdr
    simp [deserializeRun, hdr]
  · intro arch vec h hdr
    simp only [deserializeRun, hdr]
    by_cases hok : (deserializeVector h arch (prepareVector h vec)).2 = true <;>
      simp [hok]

/-- Witness for C7: a failing header read (stream failure) leaves the
destination `[1, 2]` untouched; a successful header followed by a short
element stream leaves exactly the partially written contents. -/
theorem error_before_write_leaves_destination_unchanged_witness :
    deserializeRun ⟨none, [7, 8, 9], []⟩ ⟨[1, 2], false, 5, 4⟩ =
      (.error "Corrupt archive detected", ⟨[1, 2], false, 5, 4⟩) ∧
    (deserializeRun ⟨some ⟨1, 0, 5, 4, 2, 2⟩, [7], []⟩ ⟨[1, 2], false, 5, 4⟩).2 =
      (deserializeVector ⟨1, 0, 5, 4, 2, 2⟩ ⟨some ⟨1, 0, 5, 4, 2, 2⟩, [7], []⟩
        (prepareVector ⟨1, 0, 5, 4, 2, 2⟩ ⟨[1, 2], false, 5, 4⟩)).1 := by
  have h1 := error_before_write_leaves_destination_unchanged.1
    ⟨none, [7, 8, 9], []⟩ ⟨[1, 2], false, 5, 4⟩ "Corrupt archive detected" rfl
  have h2 := error_before_write_leaves_destination_unchanged.2
    ⟨some ⟨1, 0, 5, 4, 2, 2⟩, [7], []⟩ ⟨[1, 2], false, 5, 4⟩ ⟨1, 0, 5, 4, 2, 2⟩
    rfl
  exact ⟨h1, h2⟩

/-! ### The `DVecTransExprTrait` result-type trait
(`blaze/math/traits/DVecTransExprTrait.h`) -/

/-- Model of the C++ types the trait distinguishes: vector types with
their density and transpose flags, non-vector types, cv-qualified and
reference types, the `DVecTransExpr<VT,true>` expression type, and
`INVALID_TYPE`. -/
inductive CppType where
  | vec (dense : Bool) (transposeFlag : Bool)
  | other
  | constQ (t : CppType)
  | volatileQ (t : CppType)
  | refQ (t : CppType)
  | dVecTransExpr (t : CppType) (tf : Bool)
  | invalidType
  deriving DecidableEq

namespace CppType

/-- `IsConst<VT>::value`: true exactly for a top-level const qualifier. -/
def isConst : CppType → Bool
  | .constQ _ => true
  | _ => false

/-- `IsVolatile<VT>::value`. -/
def isVolatile : CppType → Bool
  | .volatileQ _ => true
  | _ => false

/-- `IsReference<VT>::value`. -/
def isReference : CppType → Bool
  | .refQ _ => true
  | _ => false

/-- `IsDenseVector<VT>::value` on unqualified types: dense vector types
and `DVecTransExpr` (itself a dense vector expression type). -/
def isDenseVector : CppType → Bool
  | .vec dense _ => dense
  | .dVecTransExpr _ _ => true
  | _ => false

/-- `IsTransposeVector<VT>::value` on unqualified types. -/
def isTransposeVector : CppType → Bool
  | .vec _ tf => tf
  | .dVecTransExpr _ tf => tf
  | _ => false

/-- `RemoveCV<VT>::Type`: strips top-level const/volatile qualifiers (it
does not look through references). -/
def removeCV : CppType → CppType
  | .constQ t => removeCV t
  | .volatileQ t => removeCV t
  | t => t

/-- `RemoveReference<VT>::Type`: strips one top-level reference. -/
def removeReference : CppType → CppType
  | .refQ t => t
  | t => t

/-- All cv/reference qualifiers stripped, recursively. -/
def stripQualifiers : CppType → CppType
  | .constQ t => stripQualifiers t
  | .volatileQ t => stripQualifiers t
  | .refQ t => stripQualifiers t
  | t => t

theorem sizeOf_removeCV_le : ∀ t : CppType, sizeOf (removeCV t) ≤ sizeOf t := by
  intro t
  induction t with
  | constQ t ih => simp only [removeCV]; simp; omega
  | volatileQ t ih => simp only [removeCV]; simp; omega
  | _ => simp [removeCV]

theorem sizeOf_removeReference_le : ∀ t : CppType, sizeOf (removeReference t) ≤ sizeOf t := by
  intro t
  cases t <;> simp [removeReference]

/-- `DVecTransExprTrait<VT>::Type` (the class template of
`DVecTransExprTrait.h`): when `VT` is const-, volatile- or
reference-qualified, recurse on the qualifier-stripped type; otherwise
the type is `DVecTransExpr<VT,true>` when `VT` is a dense non-transpose
vector and `INVALID_TYPE` in every other case. -/
def dVecTransExprTrait (t : CppType) : CppType :=
  if isConst t || isVolatile t || isReference t then
    dVecTransExprTrait (removeReference (removeCV t))
  else if isDenseVector t && !isTransposeVector t then
    .dVecTransExpr t true
  else
    .invalidType
termination_by sizeOf t
decreasing_by
  rename_i hq
  simp only [Bool.or_eq_true] at hq
  rcases hq with (hc | hv) | hr
  · cases t with
    | constQ u =>
        calc sizeOf (removeReference (removeCV (CppType.constQ u)))
            ≤ sizeOf (removeCV (CppType.constQ u)) := sizeOf_removeReference_le _
          _ = sizeOf (removeCV u) := by simp [removeCV]
          _ ≤ sizeOf u := sizeOf_removeCV_le u
          _ < sizeOf (CppType.constQ u) := by simp
    | _ => simp [isConst] at hc
  · cases t with
    | volatileQ u =>
        calc sizeOf (removeReference (removeCV (CppType.volatileQ u)))
            ≤ sizeOf (removeCV (CppType.volatileQ u)) := sizeOf_removeReference_le _
          _ = sizeOf (removeCV u) := by simp [removeCV]
          _ ≤ sizeOf u := sizeOf_removeCV_le u
          _ < sizeOf (CppType.volatileQ u) := by simp
    | _ => simp [isVolatile] at hv
  · cases t with
    | refQ u =>
        calc sizeOf (removeReference (removeCV (CppType.refQ u)))
            = sizeOf (removeReference (CppType.refQ u)) := by simp [removeCV]
          _ = sizeOf u := by simp [removeReference]
          _ < sizeOf (CppType.refQ u) := by simp
    | _ => simp [isReference] at hr

theorem stripQualifiers_removeCV (t : CppType) :
    stripQualifiers (removeCV t) = stripQualifiers t := by
  induction t with
  | constQ u ih => simp only [removeCV, stripQualifiers, ih]
  | volatileQ u ih => simp only [removeCV, stripQualifiers, ih]
  | _ => rfl

theorem stripQualifiers_removeReference (t : CppType) :
    stripQualifiers (removeReference t) = stripQualifiers t := by
  cases t <;> rfl

theorem stripQualifiers_eq_self_of_unqualified (t : CppType)
    (h : (isConst t || isVolatile t || isReference t) = false) :
    stripQualifiers t = t := by
  cases t <;> simp_all [isConst, isVolatile, isReference, stripQualifiers]

end CppType

open CppType in
/-- C8 (amended): result-type resolution is total: for every modelled C++
type `VT`, `DVecTransExprTrait<VT>::Type` is `DVecTransExpr<VT',true>` —
where `VT'` is `VT` stripped of all const/volatile/reference qualifiers —
exactly when `VT'` is a dense non-transpose vector, and `INVALID_TYPE`
for every other `VT`. -/
theorem dVecTransExprTrait_total_resolution (t : CppType) :
    dVecTransExprTrait t =
      (if isDenseVector (stripQualifiers t) && !isTransposeVector (stripQualifiers t)
       then CppType.dVecTransExpr (stripQualifiers t) true
       else CppType.invalidType) := by
  induction t using dVecTransExprTrait.induct with
  | case1 t hq ih =>
      rw [dVecTransExprTrait, if_pos hq, ih, stripQualifiers_removeReference,
        stripQualifiers_removeCV]
  | case2 t hq hd =>
      rw [dVecTransExprTrait, if_neg hq, if_pos hd,
        stripQualifiers_eq_self_of_unqualified t (by simpa using hq), if_pos hd]
  | case3 t hq hd =>
      rw [dVecTransExprTrait, if_neg hq, if_neg hd,
        stripQualifiers_eq_self_of_unqualified t (by simpa using hq), if_neg hd]

open CppType in
/-- C8 (counterexample): for the const-qualified dense non-transpose
vector type `const V`, the stripped type is a dense non-transpose vector,
yet `DVecTransExprTrait<const V>::Type` is not `DVecTransExpr<const V,true>`
— the trait recurses on the stripped type, so the result is
`DVecTransExpr<V,true>` for the unqualified `V` instead. -/
theorem dVecTransExprTrait_qualified_counterexample :
    isDenseVector (stripQualifiers (CppType.constQ (CppType.vec true false))) = true ∧
    isTransposeVector (stripQualifiers (CppType.constQ (CppType.vec true false))) = false ∧
    dVecTransExprTrait (CppType.constQ (CppType.vec true false)) ≠
      CppType.dVecTransExpr (CppType.constQ (CppType.vec true false)) true ∧
    dVecTransExprTrait (CppType.constQ (CppType.vec true false)) =
      CppType.dVecTransExpr (CppType.vec true false) true := by
  have h1 : dVecTransExprTrait (CppType.constQ (CppType.vec true false)) =
      dVecTransExprTrait (CppType.vec true false) := by
    rw [dVecTransExprTrait]
    simp [isConst, removeCV, removeReference]
  have h2 : dVecTransExprTrait (CppType.vec true false) =
      CppType.dVecTransExpr (CppType.vec true false) true := by
    rw [dVecTransExprTrait]
    simp [isConst, isVolatile, isReference, isDenseVector, isTransposeVector]
  refine ⟨rfl, rfl, ?_, h1.trans h2⟩
  rw [h1, h2]
  decide

/-! ### The `UniqueArray` smart pointer (`blaze/util/UniqueArray.h`) -/

/-- The state of a `UniqueArray`: the managed pointer (`ptr_`), as an
abstract storage address. -/
structure UniqueArrayS where
  ptr : Nat
  deriving DecidableEq

/-- `UniqueArray::reset(ptr)`: when the argument differs from the managed
pointer, a temporary `UniqueArray(ptr)` is swapped with `*this` and its
destructor runs the deleter on the previously managed pointer; when the
argument equals the managed pointer, nothing happens.  Returns the new
state together with the list of pointers passed to the deleter. -/
def resetUA (s : UniqueArrayS) (p : Nat) : UniqueArrayS × List Nat :=
  if p ≠ s.ptr then (⟨p⟩, [s.ptr]) else (s, [])

/-- `UniqueArray::~UniqueArray()`: runs the deleter on the managed
pointer. -/
def destroyUA (s : UniqueArrayS) : List Nat :=
  [s.ptr]

/-- Run a sequence of `reset` calls, collecting all deleter invocations. -/
def runResets (s : UniqueArrayS) : List Nat → UniqueArrayS × List Nat
  | [] => (s, [])
  | p :: ps =>
      let r1 := resetUA s p
      let r2 := runResets r1.1 ps
      (r2.1, r1.2 ++ r2.2)

/-- The full lifecycle of a `UniqueArray` created over `init`: a sequence
of `reset` calls followed by destruction; the result is every pointer
passed to the deleter, in order. -/
def lifecycleDeletions (init : Nat) (cmds : List Nat) : List Nat :=
  (runResets ⟨init⟩ cmds).2 ++ destroyUA (runResets ⟨init⟩ cmds).1

/-- When every pointer managed during the lifecycle is fresh (never
handed to the array twice), the deleter receives each managed pointer
exactly once, in order of replacement. -/
theorem runResets_lifecycle (cmds : List Nat) :
    ∀ s : UniqueArrayS, (s.ptr :: cmds).Nodup →
      (runResets s cmds).2 ++ destroyUA (runResets s cmds).1 = s.ptr :: cmds := by
  induction cmds with
  | nil => intro s _; rfl
  | cons p ps ih =>
      intro s hnd
      rw [List.nodup_cons] at hnd
      obtain ⟨hmem, hnd2⟩ := hnd
      have hps : p ≠ s.ptr := by
        intro h
        exact hmem (by simp [h])
      have hr : resetUA s p = (⟨p⟩, [s.ptr]) := by
        simp [resetUA, hps]
      simp only [runResets, hr]
      rw [List.append_assoc, ih ⟨p⟩ hnd2]
      rfl

/-- C9: `reset(p)` with `p` equal to the currently managed pointer leaves
the `UniqueArray` unchanged and does not invoke the deleter; with any
other pointer it frees the previously managed array exactly once and
installs `p`; together with the destructor, every managed array is
deleted exactly once over the object's lifecycle (no double free from
self-reset). -/
theorem reset_no_double_free :
    (∀ s : UniqueArrayS, resetUA s s.ptr = (s, [])) ∧
    (∀ (s : UniqueArrayS) (p : Nat), p ≠ s.ptr → resetUA s p = (⟨p⟩, [s.ptr])) ∧
    (∀ (init : Nat) (cmds : List Nat), (init :: cmds).Nodup →
      lifecycleDeletions init cmds = init :: cmds) := by
  refine ⟨?_, ?_, ?_⟩
  · intro s
    simp [resetUA]
  · intro s p h
    simp [resetUA, h]
  · intro init cmds h
    exact runResets_lifecycle cmds ⟨init⟩ h

/-- Witness for C9: self-reset of the array managing pointer 5 is a
no-op with no deletion; reset to 7 deletes 5 once; the lifecycle
`1 → reset 2 → reset 3 → destructor` deletes each of 1, 2, 3 exactly
once. -/
theorem reset_no_double_free_witness :
    resetUA ⟨5⟩ 5 = (⟨5⟩, []) ∧
    resetUA ⟨5⟩ 7 = (⟨7⟩, [5]) ∧
    lifecycleDeletions 1 [2, 3] = [1, 2, 3] :=
  ⟨reset_no_double_free.1 ⟨5⟩,
   reset_no_double_free.2.1 ⟨5⟩ 7 (by decide),
   reset_no_double_free.2.2 1 [2, 3] (by decide)⟩

/-- The state of a `UniqueArray` together with its deleter member
(`deleter_`), over an abstract deleter type `δ`. -/
structure UniqueArrayD (δ : Type) where
  ptr : Nat
  deleter : δ
  deriving DecidableEq

/-- `UniqueArray::swap`: exchanges exactly the managed pointers through a
temporary; the deleter members are untouched. -/
def swapUA {δ : Type} (a b : UniqueArrayD δ) : UniqueArrayD δ × UniqueArrayD δ :=
  ({ a with ptr := b.ptr }, { b with ptr := a.ptr })

/-- The free function `swap(a, b)`: delegates to the member `swap`. -/
def swapFree {δ : Type} (a b : UniqueArrayD δ) : UniqueArrayD δ × UniqueArrayD δ :=
  swapUA a b

/-- C10: `swap` exchanges exactly the managed pointers of the two arrays
and nothing else — the deleters stay with their objects — so after
`a.swap(b)` each array manages the other's former pointer, swapping twice
restores both objects exactly (swap is an involution), and the free
`swap` agrees with the member `swap`. -/
theorem swap_exchanges_only_pointers {δ : Type} (a b : UniqueArrayD δ) :
    (swapUA a b).1.ptr = b.ptr ∧ (swapUA a b).2.ptr = a.ptr ∧
    (swapUA a b).1.deleter = a.deleter ∧ (swapUA a b).2.deleter = b.deleter ∧
    swapUA (swapUA a b).1 (swapUA a b).2 = (a, b) ∧
    swapFree a b = swapUA a b :=
  ⟨rfl, rfl, rfl, rfl, rfl, rfl⟩

end Blaze
